import Mathlib

/-!
# Path-completion predictors of `predict_files.go`

A shallow embedding of the file predictors (`PredictDirs`, `PredictFiles`,
`PredictFilesSet`, `files`, `predictFiles`, `listFiles`, `toRel`) and the
properties of them that the specification states.

Go strings are modelled as lists of characters.  Everything the predictors ask
of the operating system, of the Go standard library and of the packages that
are not part of `predict_files.go` is collected in one record, `Env`; the
functions of `predict_files.go` are translated over an arbitrary `Env`.
The second half of the definitions builds one computable `Env` from a small
description of a file tree, for evaluating the predictors on concrete inputs.
-/

namespace Complete

/-- A Go string, as the list of its characters. -/
abbrev GoString := List Char

/-- The `Args` structure handed to a predictor.  `predict_files.go` reads and
rebinds `Last` only. -/
structure Args where
  All : List GoString
  Completed : List GoString
  Last : GoString
  LastCompleted : GoString
deriving DecidableEq

/-- Everything `predict_files.go` calls that is defined elsewhere.

* `stat p` is `os.Stat(p)`: `none` for an error, `some d` with `d = IsDir()`.
* `glob p` is `filepath.Glob(p)`: `none` for an error.
* `join d p` is `filepath.Join(d, p)`.
* `readDir d` is `ioutil.ReadDir(d)`: `none` for an error, otherwise the
  entries as pairs `(Name(), IsDir())`.
* `getwd` is `os.Getwd()`, `abs` is `filepath.Abs`, `rel` is `filepath.Rel`,
  each `none` for an error; `isAbs` is `filepath.IsAbs`.
* `matchFile f p` is `match.File(f, p)`.
* `directory a` is `a.Directory()`.
* `rangeKeys ks` is the order in which `for k := range m` visits a map whose
  keys are `ks`; Go leaves the order open, so the environment fixes, for each
  list of keys, some rearrangement of it. -/
structure Env where
  stat : GoString → Option Bool
  glob : GoString → Option (List GoString)
  join : GoString → GoString → GoString
  readDir : GoString → Option (List (GoString × Bool))
  getwd : Option GoString
  abs : GoString → Option GoString
  rel : GoString → GoString → Option GoString
  isAbs : GoString → Bool
  matchFile : GoString → GoString → Bool
  directory : Args → GoString
  rangeKeys : List GoString → List GoString
  rangeKeys_perm : ∀ ks, (rangeKeys ks).Perm ks

/-- `strings.HasSuffix`. -/
def HasSuffix (s suffix : GoString) : Bool := suffix.isSuffixOf s

/-- `strings.HasPrefix`. -/
def HasPrefix (s pre : GoString) : Bool := pre.isPrefixOf s

/-- The assignment `m[k] = true` on a `map[string]bool` all of whose values are
`true`: the map is the list of its keys, in the order they were first set. -/
def mapSet (m : List GoString) (k : GoString) : List GoString :=
  if k ∈ m then m else m ++ [k]

/-- The test of `listFiles` on one glob match `f`:
`err != nil || stat.IsDir() || allowFiles` for `stat, err := os.Stat(f)`. -/
def keepMatch (env : Env) (allowFiles : Bool) (f : GoString) : Bool :=
  match env.stat f with
  | none => true
  | some isDir => isDir || allowFiles

/-- The first loop of `listFiles`, over the glob matches. -/
def addMatches (env : Env) (allowFiles : Bool) (m : List GoString)
    (matches_ : List GoString) : List GoString :=
  matches_.foldl (fun m f => if keepMatch env allowFiles f then mapSet m f else m) m

/-- The second loop of `listFiles`, over the entries `ioutil.ReadDir` returned. -/
def addDirs (m : List GoString) (dirs : List (GoString × Bool)) : List GoString :=
  dirs.foldl (fun m d => if d.2 then mapSet m d.1 else m) m

/-- The keys of the map `listFiles` builds, before they are ranged over. -/
def listKeys (env : Env) (dir pattern : GoString) (allowFiles : Bool) : List GoString :=
  let m : List GoString := []
  let m := match env.glob (env.join dir pattern) with
    | some fs => addMatches env allowFiles m fs
    | none => m
  let m := match env.readDir dir with
    | some dirs => addDirs m dirs
    | none => m
  m

/-- `listFiles(dir, pattern, allowFiles)`. -/
def listFiles (env : Env) (dir pattern : GoString) (allowFiles : Bool) : List GoString :=
  env.rangeKeys (listKeys env dir pattern allowFiles)

/-- `toRel(file)`. -/
def toRel (env : Env) (file : GoString) : GoString :=
  match env.getwd with
  | none => file
  | some workDir =>
    match env.abs file with
    | none => file
    | some abs =>
      match env.rel workDir abs with
      | none => file
      | some rel =>
        let rel := if rel ≠ ".".toList then "./".toList ++ rel else rel
        let rel := if env.stat rel = some true then rel ++ "/".toList else rel
        rel

/-- The name the loop of `PredictFilesSet` tests and appends for the element
`f`: `toRel(f)` when `rel` is set, `f` otherwise. -/
def relName (env : Env) (rel : Bool) (f : GoString) : GoString :=
  if rel then toRel env f else f

/-- The function `PredictFilesSet(files)` returns, applied to `a`. -/
def PredictFilesSet (env : Env) (files : List GoString) (a : Args) : List GoString :=
  let rel := !env.isAbs (env.directory a)
  files.foldl
    (fun prediction f =>
      let f := relName env rel f
      if env.matchFile f a.Last then prediction ++ [f] else prediction)
    []

/-- `predictFiles(a, pattern, allowFiles)`. -/
def predictFiles (env : Env) (a : Args) (pattern : GoString) (allowFiles : Bool) :
    List GoString :=
  if HasSuffix a.Last "/..".toList then []
  else
    let dir := env.directory a
    let files := listFiles env dir pattern allowFiles
    let files := files ++ [dir]
    PredictFilesSet env files a

/-- The function `files(pattern, allowFiles)` returns, applied to `a`.  The Go
loop `for { ... }` has no bound; here each pass of the loop uses one unit of
`fuel`, and `none` says the fuel ran out before the loop returned. -/
def files (env : Env) (pattern : GoString) (allowFiles : Bool) :
    Nat → Args → Option (List GoString)
  | 0, _ => none
  | fuel + 1, a =>
    let prediction := predictFiles env a pattern allowFiles
    match prediction with
    | [p] =>
      if p = a.Last then some prediction
      else
        match env.stat p with
        | some true => files env pattern allowFiles fuel { a with Last := p }
        | _ => some prediction
    | _ => some prediction

/-- The function `PredictDirs(pattern)` returns. -/
def PredictDirs (env : Env) (pattern : GoString) : Nat → Args → Option (List GoString) :=
  files env pattern false

/-- The function `PredictFiles(pattern)` returns. -/
def PredictFiles (env : Env) (pattern : GoString) : Nat → Args → Option (List GoString) :=
  files env pattern true

/-! ## A computable environment over a small file tree

The definitions below answer the calls of `Env` from a description of a file
tree, following the documented behaviour of the Go standard library on a
system whose path separator is `/`.  They serve for evaluating the predictors
on concrete inputs; the general theorems hold for every `Env`. -/

/-- What a node of the file tree is: a regular file, a directory, or a
symbolic link whose target does not exist. -/
inductive Kind where
  | file
  | dir
  | brokenLink
deriving DecidableEq

/-- A file tree: the working directory and the nodes, each under its absolute
path given as the list of names from the root.  The root itself is a directory
and is not listed. -/
structure Tree where
  cwd : List GoString
  nodes : List (List GoString × Kind)

/-- The pieces of a string between its `/` characters. -/
def splitSlash : GoString → List GoString
  | [] => [[]]
  | c :: cs =>
    match splitSlash cs with
    | [] => [[]]
    | w :: ws => if c = '/' then [] :: w :: ws else (c :: w) :: ws

/-- The pieces put together again, with `/` between them. -/
def joinSlash (cs : List GoString) : GoString := "/".toList.intercalate cs

/-- One element of a path met by `filepath.Clean`; `stack` holds the elements
kept so far, the last one first. -/
def cleanStep (rooted : Bool) (stack : List GoString) (c : GoString) : List GoString :=
  if c = [] ∨ c = ".".toList then stack
  else if c = "..".toList then
    match stack with
    | [] => if rooted then [] else [c]
    | t :: rest => if t = "..".toList then c :: stack else rest
  else c :: stack

/-- The elements `filepath.Clean` keeps of a path. -/
def cleanElems (path : GoString) : List GoString :=
  ((splitSlash path).foldl (cleanStep (HasPrefix path "/".toList)) []).reverse

/-- `filepath.Clean`. -/
def Clean (path : GoString) : GoString :=
  if HasPrefix path "/".toList then '/' :: joinSlash (cleanElems path)
  else if cleanElems path = [] then ".".toList
  else joinSlash (cleanElems path)

/-- `filepath.Join` of two elements. -/
def Join (a b : GoString) : GoString :=
  if a ≠ [] then Clean (a ++ "/".toList ++ b)
  else if b ≠ [] then Clean b
  else []

/-- `filepath.Split`: the path through its last `/`, and what follows. -/
def Split (path : GoString) : GoString × GoString :=
  match (splitSlash path).reverse with
  | [] => ([], [])
  | last :: front => (if front = [] then [] else joinSlash (front.reverse ++ [[]]), last)

/-- `filepath.Dir`. -/
def Dir (path : GoString) : GoString := Clean (Split path).1

/-- `filepath.IsAbs`. -/
def IsAbs (path : GoString) : Bool := HasPrefix path "/".toList

/-- `strings.TrimPrefix`. -/
def TrimPrefix (s pre : GoString) : GoString :=
  if HasPrefix s pre then s.drop pre.length else s

/-- The two lists without their longest common beginning. -/
def dropCommon : List GoString → List GoString → List GoString × List GoString
  | b :: bs, t :: ts => if b = t then dropCommon bs ts else (b :: bs, t :: ts)
  | bs, ts => (bs, ts)

/-- `filepath.Rel`. -/
def Rel (basepath targpath : GoString) : Option GoString :=
  if Clean targpath = Clean basepath then some ".".toList
  else if IsAbs basepath ≠ IsAbs targpath then none
  else
    match dropCommon (cleanElems basepath) (cleanElems targpath) with
    | ([], ts) => some (joinSlash ts)
    | (b :: bs, ts) =>
      if b = "..".toList then none
      else some (joinSlash ((b :: bs).map (fun _ => "..".toList) ++ ts))

namespace Tree

/-- The kind of the node at an absolute path, if there is one. -/
def kindOf (t : Tree) (p : List GoString) : Option Kind :=
  if p = [] then some Kind.dir else (t.nodes.find? (fun n => n.1 = p)).map (fun n => n.2)

/-- One element of a path being looked up from the node `cur`. -/
def walkStep (t : Tree) (cur : Option (List GoString)) (c : GoString) :
    Option (List GoString) :=
  match cur with
  | none => none
  | some p =>
    if t.kindOf p ≠ some Kind.dir then none
    else if c = [] ∨ c = ".".toList then some p
    else if c = "..".toList then some p.dropLast
    else if (t.kindOf (p ++ [c])).isSome then some (p ++ [c]) else none

/-- The node a path names, looked up element by element from the root or from
the working directory; the empty path names nothing. -/
def resolve (t : Tree) (path : GoString) : Option (List GoString) :=
  if path = [] then none
  else (splitSlash path).foldl t.walkStep (some (if IsAbs path then [] else t.cwd))

/-- `os.Stat`: an error for a path that names nothing or a broken link. -/
def stat (t : Tree) (path : GoString) : Option Bool :=
  match t.resolve path with
  | none => none
  | some p =>
    match t.kindOf p with
    | some Kind.dir => some true
    | some Kind.file => some false
    | _ => none

/-- Whether `os.Lstat` succeeds. -/
def lstatOk (t : Tree) (path : GoString) : Bool := (t.resolve path).isSome

/-- Byte-wise `<=` on strings. -/
def strLe : GoString → GoString → Bool
  | [], _ => true
  | _ :: _, [] => false
  | a :: as, b :: bs => a.toNat < b.toNat || (a = b && strLe as bs)

/-- Insertion into a list of entries sorted by name. -/
def insertEntry (e : GoString × Bool) : List (GoString × Bool) → List (GoString × Bool)
  | [] => [e]
  | x :: xs => if strLe e.1 x.1 then e :: x :: xs else x :: insertEntry e xs

/-- The entries of the directory at the absolute path `p`, sorted by name,
each with its `IsDir()`. -/
def entries (t : Tree) (p : List GoString) : List (GoString × Bool) :=
  (t.nodes.filterMap (fun n =>
      match n.1.reverse with
      | [] => none
      | name :: front => if front.reverse = p then some (name, decide (n.2 = Kind.dir)) else none)
    ).foldr insertEntry []

/-- `ioutil.ReadDir`. -/
def readDir (t : Tree) (dir : GoString) : Option (List (GoString × Bool)) :=
  match t.resolve dir with
  | none => none
  | some p => if t.kindOf p = some Kind.dir then some (t.entries p) else none

end Tree

/-- Whether a pattern has one of the characters `*`, `?`, `[`. -/
def hasMeta (s : GoString) : Bool := s.any (fun c => c = '*' || c = '?' || c = '[')

/-- `filepath.Match` for patterns made of plain characters, `*` and `?`,
against a name without `/`. -/
def matchName : GoString → GoString → Bool
  | [], name => name.isEmpty
  | c :: p, name =>
    if c = '*' then name.tails.any (fun rest => matchName p rest)
    else
      match name with
      | [] => false
      | d :: rest => (c = '?' || c = d) && matchName p rest

/-- `filepath.Glob`, for patterns whose meta characters are `*` and `?` in the
last element; the environment answers other patterns with an error. -/
def Glob (t : Tree) (pattern : GoString) : Option (List GoString) :=
  if ¬ hasMeta pattern then some (if t.lstatOk pattern then [pattern] else [])
  else
    let dir := (Split pattern).1
    let file := (Split pattern).2
    let dir := if dir = [] then ".".toList else if dir = "/".toList then dir else dir.dropLast
    if hasMeta dir ∨ file.any (fun c => c = '[' || c = '\\') then none
    else
      match t.stat dir, t.resolve dir with
      | some true, some p =>
        some (((t.entries p).map (fun e => e.1)).filter (matchName file) |>.map (Join dir))
      | _, _ => some []

/-- Modelled from the spec: `Args.Directory`, whose file `args.go` is not among
the sources.  It is "the directory portion of `Last`, computed by stripping the
trailing incomplete segment", and "always yields a path usable directly for
filesystem listing": `Last` itself when `Last` is a directory, otherwise
`filepath.Dir(Last)`, and `./` when that cannot be listed either. -/
def Directory (t : Tree) (a : Args) : GoString :=
  if t.stat a.Last = some true then a.Last
  else if t.stat (Dir a.Last) = none then "./".toList
  else Dir a.Last

/-- Modelled from the spec: the Matcher `match.File`, whose package is not among
the sources; the spec fixes only that it "decides boolean match" from a
candidate and the typed fragment.  This is the prefix matcher of the imported
package: the working directory `./` matches an empty or `.` fragment, a `.`
fragment matches every name starting with a dot, and otherwise the candidate
must start with the fragment, a leading `./` of either being left out. -/
def matchFile (file pre : GoString) : Bool :=
  if file = "./".toList ∧ (pre = ".".toList ∨ pre = []) then true
  else if pre = ".".toList ∧ HasPrefix file ".".toList then true
  else HasPrefix (TrimPrefix file "./".toList) (TrimPrefix pre "./".toList)

/-- The plain prefix matcher: the candidate starts with the fragment. -/
def matchPrefix (file pre : GoString) : Bool := HasPrefix file pre

/-- The environment of a file tree, with a given matcher; a map is ranged over
in the order its keys were first set. -/
def Tree.env (t : Tree) (matcher : GoString → GoString → Bool) : Env where
  stat := t.stat
  glob := Glob t
  join := Join
  readDir := t.readDir
  getwd := some ('/' :: joinSlash t.cwd)
  abs := fun p => some (if IsAbs p then Clean p else Join ('/' :: joinSlash t.cwd) p)
  rel := Rel
  isAbs := IsAbs
  matchFile := matcher
  directory := Directory t
  rangeKeys := fun ks => ks
  rangeKeys_perm := fun ks => List.Perm.refl ks

/-- The `Args` whose `Last` is the given string and whose other fields are empty. -/
def argsLast (last : GoString) : Args :=
  { All := [], Completed := [], Last := last, LastCompleted := [] }

/-- The value of the loop variable `a` of `files(pattern, allowFiles)` at the
pass that returns: the `Args` given, or the one a descent step left, `Last`
rebound to the single prediction of the pass before. -/
def finalArgs (env : Env) (pattern : GoString) (allowFiles : Bool) :
    Nat → Args → Option Args
  | 0, _ => none
  | fuel + 1, a =>
    match predictFiles env a pattern allowFiles with
    | [p] =>
      if p = a.Last then some a
      else
        match env.stat p with
        | some true => finalArgs env pattern allowFiles fuel { a with Last := p }
        | _ => some a
    | _ => some a

/-- The path `toRel(file)` hands to `os.Stat`, when the working-directory
lookup, `filepath.Abs` and `filepath.Rel` all succeed: the relative path, with
`./` in front unless it is `.`. -/
def resolved (env : Env) (file : GoString) : Option GoString :=
  match env.getwd with
  | none => none
  | some workDir =>
    match env.abs file with
    | none => none
    | some abs =>
      match env.rel workDir abs with
      | none => none
      | some rel => some (if rel ≠ ".".toList then "./".toList ++ rel else rel)

/-- The form of a string `x` that `toRel` returns for `file`, stated for the
case that resolution succeeds: `x` begins with `./` unless the resolved path is
the working directory `.`, and `x` ends with `/` when the resolved path is a
directory. -/
def RelForm (env : Env) (file x : GoString) : Prop :=
  x = toRel env file ∧
    ∀ r, resolved env file = some r →
      (HasPrefix x "./".toList = true ∨ r = ".".toList) ∧
      (env.stat r = some true → HasSuffix x "/".toList = true)

/-- What the calls answer when the working directory `wd` has one entry, the
directory `X`, and `a` has an empty `Last` whose `Directory()` is the relative
path `d` of the working directory. -/
structure SoleSubdir (env : Env) (a : Args) (d wd X : GoString) : Prop where
  last : a.Last = []
  directory : env.directory a = d
  notAbs : env.isAbs d = false
  glob : env.glob (env.join d "*".toList) = some [X]
  readDir : env.readDir d = some [(X, true)]
  statX : env.stat X = some true
  getwd : env.getwd = some wd
  absX : env.abs X = some (wd ++ "/".toList ++ X)
  relX : env.rel wd (wd ++ "/".toList ++ X) = some X
  notDot : X ≠ ".".toList
  statRelX : env.stat ("./".toList ++ X) = some true
  absDir : env.abs d = some wd
  relDir : env.rel wd wd = some ".".toList
  statDot : env.stat ".".toList = some true
  matchX : env.matchFile ("./".toList ++ X ++ "/".toList) [] = true
  matchDir : env.matchFile "./".toList [] = true

/-! ### File trees used as concrete inputs -/

/-- The working directory `/w`, empty. -/
def emptyTree : Tree :=
  { cwd := ["w".toList], nodes := [(["w".toList], Kind.dir)] }

/-- The working directory `/w` holding one directory `X` with the files `f1`
and `f2`. -/
def nestedTree : Tree :=
  { cwd := ["w".toList],
    nodes := [(["w".toList], Kind.dir), (["w".toList, "X".toList], Kind.dir),
      (["w".toList, "X".toList, "f1".toList], Kind.file),
      (["w".toList, "X".toList, "f2".toList], Kind.file)] }

/-- The working directory `/w` holding only the file `readme.txt`. -/
def readmeTree : Tree :=
  { cwd := ["w".toList],
    nodes := [(["w".toList], Kind.dir), (["w".toList, "readme.txt".toList], Kind.file)] }

/-- The working directory `/w` holding only `ghost`, a symbolic link whose
target does not exist. -/
def linkTree : Tree :=
  { cwd := ["w".toList],
    nodes := [(["w".toList], Kind.dir), (["w".toList, "ghost".toList], Kind.brokenLink)] }

/-- The working directory `/w` holding the directory `dir`, which holds the
directory `sub`. -/
def subdirTree : Tree :=
  { cwd := ["w".toList],
    nodes := [(["w".toList], Kind.dir), (["w".toList, "dir".toList], Kind.dir),
      (["w".toList, "dir".toList, "sub".toList], Kind.dir)] }

/-- The working directory `/w` holding the directory `x`, which holds a
directory also named `x`. -/
def twinTree : Tree :=
  { cwd := ["w".toList],
    nodes := [(["w".toList], Kind.dir), (["w".toList, "x".toList], Kind.dir),
      (["w".toList, "x".toList, "x".toList], Kind.dir)] }

/-- The names of the `PredictFilesSet` example. -/
def fruit : List GoString := ["apple".toList, "banana".toList, "avocado".toList]

/-! ## General lemmas -/

theorem foldl_append_filter (env : Env) (rel : Bool) (last : GoString) (fs acc : List GoString) :
    fs.foldl (fun prediction f =>
        let f := relName env rel f
        if env.matchFile f last then prediction ++ [f] else prediction) acc
      = acc ++ (fs.map (relName env rel)).filter (fun x => env.matchFile x last) := by
  induction fs generalizing acc with
  | nil => simp
  | cons f fs ih =>
    simp only [List.foldl_cons, List.map_cons, List.filter_cons]
    rw [ih]
    by_cases h : env.matchFile (relName env rel f) last = true
    · simp [h]
    · simp [h]

theorem PredictFilesSet_eq (env : Env) (fs : List GoString) (a : Args) :
    PredictFilesSet env fs a
      = (fs.map (relName env (!env.isAbs (env.directory a)))).filter
          (fun x => env.matchFile x a.Last) := by
  unfold PredictFilesSet
  simp only []
  rw [foldl_append_filter]
  simp

theorem mapSet_nodup {m : List GoString} (k : GoString) (h : m.Nodup) : (mapSet m k).Nodup := by
  unfold mapSet
  split
  · exact h
  · rename_i hk
    exact List.Nodup.append h (List.nodup_singleton k) (by simpa using hk)

theorem mem_mapSet {m : List GoString} {k x : GoString} : x ∈ mapSet m k ↔ x ∈ m ∨ x = k := by
  unfold mapSet
  split
  · rename_i hk
    constructor
    · exact Or.inl
    · rintro (h | rfl)
      · exact h
      · exact hk
  · simp

theorem addMatches_nodup (env : Env) (allowFiles : Bool) (fs m : List GoString) (h : m.Nodup) :
    (addMatches env allowFiles m fs).Nodup := by
  unfold addMatches
  induction fs generalizing m with
  | nil => simpa using h
  | cons f fs ih =>
    simp only [List.foldl_cons]
    apply ih
    split
    · exact mapSet_nodup f h
    · exact h

theorem mem_addMatches (env : Env) (allowFiles : Bool) (fs m : List GoString) (x : GoString) :
    x ∈ addMatches env allowFiles m fs ↔ x ∈ m ∨ (x ∈ fs ∧ keepMatch env allowFiles x = true) := by
  unfold addMatches
  induction fs generalizing m with
  | nil => simp
  | cons f fs ih =>
    simp only [List.foldl_cons]
    rw [ih]
    by_cases hf : keepMatch env allowFiles f = true
    · simp only [hf, if_true, mem_mapSet, List.mem_cons]
      constructor
      · rintro ((h | rfl) | h)
        · exact Or.inl h
        · exact Or.inr ⟨Or.inl rfl, hf⟩
        · exact Or.inr ⟨Or.inr h.1, h.2⟩
      · rintro (h | ⟨rfl | h, hk⟩)
        · exact Or.inl (Or.inl h)
        · exact Or.inl (Or.inr rfl)
        · exact Or.inr ⟨h, hk⟩
    · simp only [hf, List.mem_cons]
      constructor
      · rintro (h | h)
        · exact Or.inl h
        · exact Or.inr ⟨Or.inr h.1, h.2⟩
      · rintro (h | ⟨rfl | h, hk⟩)
        · exact Or.inl h
        · exact absurd hk hf
        · exact Or.inr ⟨h, hk⟩

theorem addDirs_nodup (ds : List (GoString × Bool)) (m : List GoString) (h : m.Nodup) :
    (addDirs m ds).Nodup := by
  unfold addDirs
  induction ds generalizing m with
  | nil => simpa using h
  | cons d ds ih =>
    simp only [List.foldl_cons]
    apply ih
    split
    · exact mapSet_nodup d.1 h
    · exact h

theorem mem_addDirs (ds : List (GoString × Bool)) (m : List GoString) (x : GoString) :
    x ∈ addDirs m ds ↔ x ∈ m ∨ (x, true) ∈ ds := by
  unfold addDirs
  induction ds generalizing m with
  | nil => simp
  | cons d ds ih =>
    simp only [List.foldl_cons]
    rw [ih]
    obtain ⟨n, b⟩ := d
    cases b
    · simp
    · simp only [if_true, mem_mapSet, List.mem_cons, Prod.mk.injEq, and_true]
      tauto

theorem listKeys_nodup (env : Env) (dir pattern : GoString) (allowFiles : Bool) :
    (listKeys env dir pattern allowFiles).Nodup := by
  unfold listKeys
  simp only []
  have h1 : (match env.glob (env.join dir pattern) with
      | some fs => addMatches env allowFiles [] fs
      | none => ([] : List GoString)).Nodup := by
    split
    · exact addMatches_nodup env allowFiles _ _ List.nodup_nil
    · exact List.nodup_nil
  split
  · exact addDirs_nodup _ _ h1
  · exact h1

/-- The glob matches `listFiles` looks at: none when `filepath.Glob` fails. -/
theorem mem_listKeys (env : Env) (dir pattern : GoString) (allowFiles : Bool) (x : GoString) :
    x ∈ listKeys env dir pattern allowFiles ↔
      (∃ fs, env.glob (env.join dir pattern) = some fs ∧ x ∈ fs ∧ keepMatch env allowFiles x = true)
      ∨ (∃ ds, env.readDir dir = some ds ∧ (x, true) ∈ ds) := by
  unfold listKeys
  simp only []
  cases hg : env.glob (env.join dir pattern) <;> cases hr : env.readDir dir <;>
    simp [mem_addDirs, mem_addMatches]

theorem mem_listFiles (env : Env) (dir pattern : GoString) (allowFiles : Bool) (x : GoString) :
    x ∈ listFiles env dir pattern allowFiles ↔ x ∈ listKeys env dir pattern allowFiles :=
  (env.rangeKeys_perm _).mem_iff

theorem listFiles_nodup (env : Env) (dir pattern : GoString) (allowFiles : Bool) :
    (listFiles env dir pattern allowFiles).Nodup :=
  (env.rangeKeys_perm _).nodup_iff.mpr (listKeys_nodup env dir pattern allowFiles)

/-- The path functions of the file-tree environment on sample inputs. -/
theorem path_functions_samples :
    Clean "a//b/../c/.".toList = "a/c".toList ∧
    Clean [] = ".".toList ∧
    Clean "/../a".toList = "/a".toList ∧
    Join "./".toList "*".toList = "*".toList ∧
    Join "dir/".toList "*.go".toList = "dir/*.go".toList ∧
    Dir [] = ".".toList ∧
    Dir "x/".toList = "x".toList ∧
    Rel "/w".toList "/w/X".toList = some "X".toList ∧
    Rel "/w".toList "/w".toList = some ".".toList ∧
    Rel "/w/a".toList "/w/X".toList = some "../X".toList ∧
    Glob nestedTree "X/*".toList = some ["X/f1".toList, "X/f2".toList] ∧
    nestedTree.stat "X/f1/".toList = none ∧
    nestedTree.readDir ".".toList = some [("X".toList, true)] := by
  decide

/-! ## The loop of `files` -/

theorem files_succ (env : Env) (pattern : GoString) (allowFiles : Bool) (fuel : Nat)
    (a : Args) :
    files env pattern allowFiles (fuel + 1) a
      = match predictFiles env a pattern allowFiles with
        | [p] =>
          if p = a.Last then some (predictFiles env a pattern allowFiles)
          else
            match env.stat p with
            | some true => files env pattern allowFiles fuel { a with Last := p }
            | _ => some (predictFiles env a pattern allowFiles)
        | _ => some (predictFiles env a pattern allowFiles) := by
  conv_lhs => unfold files

theorem finalArgs_succ (env : Env) (pattern : GoString) (allowFiles : Bool) (fuel : Nat)
    (a : Args) :
    finalArgs env pattern allowFiles (fuel + 1) a
      = match predictFiles env a pattern allowFiles with
        | [p] =>
          if p = a.Last then some a
          else
            match env.stat p with
            | some true => finalArgs env pattern allowFiles fuel { a with Last := p }
            | _ => some a
        | _ => some a := by
  conv_lhs => unfold finalArgs

theorem files_eq_finalArgs (env : Env) (pattern : GoString) (allowFiles : Bool) (fuel : Nat)
    (a : Args) :
    files env pattern allowFiles fuel a
      = (finalArgs env pattern allowFiles fuel a).map
          (fun b => predictFiles env b pattern allowFiles) := by
  induction fuel generalizing a with
  | zero => rfl
  | succ n ih =>
    rw [files_succ, finalArgs_succ]
    rcases hp : predictFiles env a pattern allowFiles with _ | ⟨p, _ | ⟨q, l⟩⟩
    · simp [hp]
    · simp only []
      by_cases hpl : p = a.Last
      · simp [hpl, hp]
      · simp only [hpl, if_false]
        rcases hs : env.stat p with _ | _ | _
        · simp [hp]
        · simp [hp]
        · simp only []
          exact ih _
    · simp [hp]

theorem files_succ_of_some (env : Env) (pattern : GoString) (allowFiles : Bool) (fuel : Nat)
    (a : Args) (r : List GoString) (h : files env pattern allowFiles fuel a = some r) :
    files env pattern allowFiles (fuel + 1) a = some r := by
  induction fuel generalizing a with
  | zero => simp [files] at h
  | succ n ih =>
    rw [files_succ] at h ⊢
    rcases hp : predictFiles env a pattern allowFiles with _ | ⟨p, _ | ⟨q, l⟩⟩
    · rw [hp] at h; exact h
    · rw [hp] at h
      simp only [] at h ⊢
      by_cases hpl : p = a.Last
      · simpa [hpl] using h
      · simp only [hpl, if_false] at h ⊢
        rcases hs : env.stat p with _ | _ | _
        · rw [hs] at h; exact h
        · rw [hs] at h; exact h
        · rw [hs] at h
          simp only [] at h ⊢
          exact ih _ h
    · rw [hp] at h; exact h

theorem files_add_of_some (env : Env) (pattern : GoString) (allowFiles : Bool) (fuel k : Nat)
    (a : Args) (r : List GoString) (h : files env pattern allowFiles fuel a = some r) :
    files env pattern allowFiles (fuel + k) a = some r := by
  induction k with
  | zero => exact h
  | succ k ih => exact files_succ_of_some env pattern allowFiles (fuel + k) a r ih

theorem finalArgs_fields (env : Env) (pattern : GoString) (allowFiles : Bool) (fuel : Nat)
    (a b : Args) (h : finalArgs env pattern allowFiles fuel a = some b) :
    b.All = a.All ∧ b.Completed = a.Completed ∧ b.LastCompleted = a.LastCompleted := by
  induction fuel generalizing a with
  | zero => simp [finalArgs] at h
  | succ n ih =>
    rw [finalArgs_succ] at h
    rcases hp : predictFiles env a pattern allowFiles with _ | ⟨p, _ | ⟨q, l⟩⟩
    · rw [hp] at h; cases h; exact ⟨rfl, rfl, rfl⟩
    · rw [hp] at h
      simp only [] at h
      by_cases hpl : p = a.Last
      · simp only [hpl, if_true] at h
        cases h; exact ⟨rfl, rfl, rfl⟩
      · simp only [hpl, if_false] at h
        rcases hs : env.stat p with _ | _ | _
        · rw [hs] at h; cases h; exact ⟨rfl, rfl, rfl⟩
        · rw [hs] at h; cases h; exact ⟨rfl, rfl, rfl⟩
        · rw [hs] at h
          simp only [] at h
          have h' := ih _ h
          exact h'
    · rw [hp] at h; cases h; exact ⟨rfl, rfl, rfl⟩

/-! ## The claims -/

/-- C1: when `Last` ends with `/..`, the pass `predictFiles` is empty whatever
the environment answers, and the predictors `PredictFiles(pattern)` and
`PredictDirs(pattern)` return the empty prediction after that one pass. -/
theorem parent_marker_yields_empty (env : Env) (pattern : GoString) (a : Args) (fuel : Nat)
    (h : HasSuffix a.Last "/..".toList = true) :
    (∀ allowFiles, predictFiles env a pattern allowFiles = []) ∧
    PredictFiles env pattern (fuel + 1) a = some [] ∧
    PredictDirs env pattern (fuel + 1) a = some [] := by
  have hp : ∀ allowFiles, predictFiles env a pattern allowFiles = [] := by
    intro allowFiles
    unfold predictFiles
    rw [if_pos h]
  refine ⟨hp, ?_, ?_⟩
  · unfold PredictFiles
    rw [files_succ, hp]
  · unfold PredictDirs
    rw [files_succ, hp]

theorem parent_marker_yields_empty_witness :
    HasSuffix (argsLast "X/..".toList).Last "/..".toList = true ∧
    PredictFiles (nestedTree.env matchFile) "*".toList 1 (argsLast "X/..".toList) = some [] ∧
    PredictDirs (nestedTree.env matchFile) "*".toList 1 (argsLast "X/..".toList) = some [] :=
  ⟨by decide,
   (parent_marker_yields_empty (nestedTree.env matchFile) "*".toList (argsLast "X/..".toList) 0
      (by decide)).2⟩

/-- C6: if the single pass `predictFiles(a, pattern, allowFiles)` has no element
or at least two, or its only element equals `a.Last`, or its only element is
not a directory or cannot be stat'ed, then `files(pattern, allowFiles)` returns
that prediction after this one pass: one unit of fuel is enough, and so is any
larger amount. -/
theorem files_stops_after_one_pass (env : Env) (pattern : GoString) (allowFiles : Bool)
    (a : Args)
    (h : (predictFiles env a pattern allowFiles).length = 0 ∨
      2 ≤ (predictFiles env a pattern allowFiles).length ∨
      predictFiles env a pattern allowFiles = [a.Last] ∨
      ∃ p, predictFiles env a pattern allowFiles = [p] ∧ env.stat p ≠ some true) :
    files env pattern allowFiles 1 a = some (predictFiles env a pattern allowFiles) ∧
    ∀ fuel, files env pattern allowFiles (fuel + 1) a
      = some (predictFiles env a pattern allowFiles) := by
  have key : ∀ fuel, files env pattern allowFiles (fuel + 1) a
      = some (predictFiles env a pattern allowFiles) := by
    intro fuel
    rw [files_succ]
    rcases hp : predictFiles env a pattern allowFiles with _ | ⟨p, _ | ⟨q, l⟩⟩
    · rfl
    · simp only []
      rw [hp] at h
      rcases h with h | h | h | ⟨q, hq, hs⟩
      · simp at h
      · simp at h
      · have hpl : p = a.Last := by simpa using h
        simp [hpl]
      · have hpq : p = q := by simpa using hq
        subst hpq
        by_cases hpl : p = a.Last
        · simp [hpl]
        · simp only [hpl, if_false]
    · rfl
  exact ⟨key 0, key⟩

theorem files_stops_after_one_pass_witness :
    2 ≤ (predictFiles (nestedTree.env matchFile) (argsLast []) "*".toList true).length ∧
    files (nestedTree.env matchFile) "*".toList true 1 (argsLast [])
      = some (predictFiles (nestedTree.env matchFile) (argsLast []) "*".toList true) ∧
    predictFiles (nestedTree.env matchFile) (argsLast []) "*".toList true
      = ["./X/".toList, "./".toList] :=
  ⟨by decide,
   (files_stops_after_one_pass (nestedTree.env matchFile) "*".toList true (argsLast [])
      (Or.inr (Or.inl (by decide)))).1,
   by decide⟩

/-- C9: if the single pass `predictFiles(a, pattern, allowFiles)` is exactly one
element `p`, `p` differs from `a.Last`, and `p` is a directory, then the loop of
`files(pattern, allowFiles)` on `a` continues as the loop on `a` with `Last`
replaced by `p`: it returns on the one exactly what it returns on the other. -/
theorem files_descent_step (env : Env) (pattern : GoString) (allowFiles : Bool) (a : Args)
    (p : GoString) (h1 : predictFiles env a pattern allowFiles = [p]) (h2 : p ≠ a.Last)
    (h3 : env.stat p = some true) :
    (∀ fuel, files env pattern allowFiles (fuel + 1) a
      = files env pattern allowFiles fuel { a with Last := p }) ∧
    (∀ r, (∃ fuel, files env pattern allowFiles fuel a = some r) ↔
      (∃ fuel, files env pattern allowFiles fuel { a with Last := p } = some r)) := by
  have key : ∀ fuel, files env pattern allowFiles (fuel + 1) a
      = files env pattern allowFiles fuel { a with Last := p } := by
    intro fuel
    rw [files_succ, h1]
    simp only [h2, if_false, h3]
  refine ⟨key, fun r => ⟨?_, ?_⟩⟩
  · rintro ⟨fuel, hf⟩
    cases fuel with
    | zero => simp [files] at hf
    | succ n => exact ⟨n, by rw [← key n]; exact hf⟩
  · rintro ⟨fuel, hf⟩
    exact ⟨fuel + 1, by rw [key fuel]; exact hf⟩

theorem files_descent_step_witness :
    predictFiles (subdirTree.env matchFile) (argsLast "di".toList) "*".toList true
      = ["./dir/".toList] ∧
    "./dir/".toList ≠ (argsLast "di".toList).Last ∧
    (subdirTree.env matchFile).stat "./dir/".toList = some true ∧
    files (subdirTree.env matchFile) "*".toList true 2 (argsLast "di".toList)
      = files (subdirTree.env matchFile) "*".toList true 1 (argsLast "./dir/".toList) ∧
    files (subdirTree.env matchFile) "*".toList true 1 (argsLast "./dir/".toList)
      = some ["./dir/sub/".toList, "./dir/".toList] :=
  ⟨by decide, by decide, by decide,
   (files_descent_step (subdirTree.env matchFile) "*".toList true (argsLast "di".toList)
      "./dir/".toList (by decide) (by decide) (by decide)).1 1,
   by decide⟩

/-- C10: `PredictFilesSet(files)(a)` is the list `files` with each element `f`
replaced by `toRel(f)` exactly when `a.Directory()` is not absolute (and left as
it is when `a.Directory()` is absolute), then restricted, in the same order, to
the elements the matcher accepts against `a.Last`; when `a.Directory()` is
absolute the result is a subsequence of `files`. -/
theorem PredictFilesSet_convert_then_filter (env : Env) (fs : List GoString) (a : Args) :
    PredictFilesSet env fs a
      = (fs.map (fun f => if env.isAbs (env.directory a) = true then f else toRel env f)).filter
          (fun x => env.matchFile x a.Last) ∧
    (env.isAbs (env.directory a) = true → (PredictFilesSet env fs a).Sublist fs) := by
  have hmap : fs.map (relName env (!env.isAbs (env.directory a)))
      = fs.map (fun f => if env.isAbs (env.directory a) = true then f else toRel env f) := by
    apply List.map_congr_left
    intro f _
    unfold relName
    cases env.isAbs (env.directory a) <;> simp
  refine ⟨by rw [PredictFilesSet_eq, hmap], fun habs => ?_⟩
  rw [PredictFilesSet_eq, hmap]
  simp only [habs, if_true, List.map_id']
  exact List.filter_sublist _


/-! ## Lemmas on `toRel` and `listFiles` for the remaining claims -/

theorem toRel_eq_resolved (env : Env) (file : GoString) :
    toRel env file
      = match resolved env file with
        | none => file
        | some r => if env.stat r = some true then r ++ "/".toList else r := by
  unfold toRel resolved
  cases env.getwd with
  | none => rfl
  | some wd =>
    simp only []
    cases env.abs file with
    | none => rfl
    | some ab =>
      simp only []
      cases env.rel wd ab with
      | none => rfl
      | some rl => rfl

theorem resolved_shape (env : Env) (file r : GoString) (h : resolved env file = some r) :
    HasPrefix r "./".toList = true ∨ r = ".".toList := by
  unfold resolved at h
  cases hw : env.getwd with
  | none => simp [hw] at h
  | some wd =>
    cases ha : env.abs file with
    | none => simp [hw, ha] at h
    | some ab =>
      cases hr : env.rel wd ab with
      | none => simp [hw, ha, hr] at h
      | some rl =>
        simp only [hw, ha, hr, Option.some.injEq] at h
        by_cases hd : rl = ".".toList
        · right
          rw [← h, if_neg (not_not.mpr hd)]
          exact hd
        · left
          rw [← h, if_pos hd]
          unfold HasPrefix
          rw [List.isPrefixOf_iff_prefix]
          exact List.prefix_append _ _

theorem hasPrefix_append (s t pre : GoString) (h : HasPrefix s pre = true) :
    HasPrefix (s ++ t) pre = true := by
  unfold HasPrefix at h ⊢
  rw [List.isPrefixOf_iff_prefix] at h ⊢
  exact h.trans (List.prefix_append s t)

theorem toRel_relForm (env : Env) (file : GoString) : RelForm env file (toRel env file) := by
  refine ⟨rfl, fun r hr => ?_⟩
  rw [toRel_eq_resolved, hr]
  simp only []
  have hshape := resolved_shape env file r hr
  by_cases hs : env.stat r = some true
  · rw [if_pos hs]
    refine ⟨?_, fun _ => ?_⟩
    · rcases hshape with h | h
      · exact Or.inl (hasPrefix_append r _ _ h)
      · exact Or.inr h
    · unfold HasSuffix
      rw [List.isSuffixOf_iff_suffix]
      exact List.suffix_append r _
  · rw [if_neg hs]
    exact ⟨hshape, fun h => absurd h hs⟩

theorem mem_PredictFilesSet (env : Env) (fs : List GoString) (a : Args) (x : GoString) :
    x ∈ PredictFilesSet env fs a ↔
      ∃ f ∈ fs, x = relName env (!env.isAbs (env.directory a)) f ∧
        env.matchFile x a.Last = true := by
  rw [PredictFilesSet_eq]
  simp only [List.mem_filter, List.mem_map]
  constructor
  · rintro ⟨⟨f, hf, rfl⟩, hm⟩
    exact ⟨f, hf, rfl, hm⟩
  · rintro ⟨f, hf, rfl, hm⟩
    exact ⟨⟨f, hf, rfl⟩, hm⟩

theorem keepMatch_iff (env : Env) (allowFiles : Bool) (f : GoString) :
    keepMatch env allowFiles f = true ↔
      env.stat f = none ∨ env.stat f = some true ∨ allowFiles = true := by
  unfold keepMatch
  cases env.stat f with
  | none => simp
  | some b => cases b <;> simp

theorem predictFiles_relForm (env : Env) (a : Args) (pattern : GoString) (allowFiles : Bool)
    (h : env.isAbs (env.directory a) = false) (x : GoString)
    (hx : x ∈ predictFiles env a pattern allowFiles) : ∃ f, RelForm env f x := by
  unfold predictFiles at hx
  split at hx
  · simp at hx
  · simp only [] at hx
    rw [mem_PredictFilesSet] at hx
    obtain ⟨f, _, hxf, _⟩ := hx
    refine ⟨f, ?_⟩
    rw [hxf, h]
    exact toRel_relForm env f

/-- C7: the form of what `toRel` returns.  When the working-directory lookup,
`filepath.Abs` and `filepath.Rel` all succeed for `file`, with resolved path
`r`, then `toRel(file)` begins with `./` unless `r` is the working directory
`.`, and it ends with `/` when `r` is a directory.  Consequently every string
returned by `PredictFilesSet`, by a pass of `predictFiles`, and by the loop of
`PredictFiles` / `PredictDirs` is `toRel` of a candidate and has this form,
whenever `Directory()` of the `Args` of that pass (for the loop: the loop
variable `a` at the pass that returns) is not absolute. -/
theorem toRel_relative_form (env : Env) :
    (∀ file r, resolved env file = some r →
      (HasPrefix (toRel env file) "./".toList = true ∨ r = ".".toList) ∧
      (env.stat r = some true → HasSuffix (toRel env file) "/".toList = true)) ∧
    (∀ fs a, env.isAbs (env.directory a) = false →
      ∀ x ∈ PredictFilesSet env fs a, ∃ f ∈ fs, RelForm env f x) ∧
    (∀ pattern allowFiles a, env.isAbs (env.directory a) = false →
      ∀ x ∈ predictFiles env a pattern allowFiles, ∃ f, RelForm env f x) ∧
    (∀ pattern allowFiles fuel a r, files env pattern allowFiles fuel a = some r →
      ∃ b, finalArgs env pattern allowFiles fuel a = some b ∧
        r = predictFiles env b pattern allowFiles ∧
        (env.isAbs (env.directory b) = false → ∀ x ∈ r, ∃ f, RelForm env f x)) := by
  refine ⟨fun file r hr => (toRel_relForm env file).2 r hr, ?_, ?_, ?_⟩
  · intro fs a h x hx
    rw [mem_PredictFilesSet] at hx
    obtain ⟨f, hf, hxf, _⟩ := hx
    refine ⟨f, hf, ?_⟩
    rw [hxf, h]
    exact toRel_relForm env f
  · intro pattern allowFiles a h x hx
    exact predictFiles_relForm env a pattern allowFiles h x hx
  · intro pattern allowFiles fuel a r hr
    rw [files_eq_finalArgs] at hr
    cases hb : finalArgs env pattern allowFiles fuel a with
    | none => simp [hb] at hr
    | some b =>
      simp only [hb, Option.map_some', Option.some.injEq] at hr
      refine ⟨b, rfl, hr.symm, fun h x hx => ?_⟩
      rw [← hr] at hx
      exact predictFiles_relForm env b pattern allowFiles h x hx

theorem toRel_relative_form_witness :
    resolved (nestedTree.env matchFile) "X".toList = some "./X".toList ∧
    (nestedTree.env matchFile).stat "./X".toList = some true ∧
    toRel (nestedTree.env matchFile) "X".toList = "./X/".toList ∧
    HasPrefix (toRel (nestedTree.env matchFile) "X".toList) "./".toList = true ∧
    HasSuffix (toRel (nestedTree.env matchFile) "X".toList) "/".toList = true :=
  ⟨by decide, by decide, by decide,
   ((toRel_relative_form (nestedTree.env matchFile)).1 "X".toList "./X".toList
      (by decide)).1.resolve_right (by decide),
   ((toRel_relative_form (nestedTree.env matchFile)).1 "X".toList "./X".toList
      (by decide)).2 (by decide)⟩


/-- C2, as the code has it: an element is in the result of
`PredictFilesSet(files)(a)` exactly when it is the converted form of a given
name (`toRel(name)` when `a.Directory()` is not absolute, the name itself
otherwise) and the matcher accepts it against `a.Last`; the given names come
back unchanged when `a.Directory()` is absolute.  In an empty working directory
the names `apple`, `banana`, `avocado` with `Last = "a"` give exactly
`./apple` and `./avocado`. -/
theorem PredictFilesSet_converted_matches :
    (∀ (env : Env) (fs : List GoString) (a : Args) (x : GoString),
      x ∈ PredictFilesSet env fs a ↔
        ∃ f ∈ fs, x = (if env.isAbs (env.directory a) = true then f else toRel env f) ∧
          env.matchFile x a.Last = true) ∧
    (∀ (env : Env) (fs : List GoString) (a : Args) (x : GoString),
      env.isAbs (env.directory a) = true →
        (x ∈ PredictFilesSet env fs a ↔ x ∈ fs ∧ env.matchFile x a.Last = true)) ∧
    PredictFilesSet (emptyTree.env matchFile) fruit (argsLast "a".toList)
      = ["./apple".toList, "./avocado".toList] := by
  refine ⟨fun env fs a x => ?_, fun env fs a x habs => ?_, by decide⟩
  · rw [mem_PredictFilesSet]
    unfold relName
    cases env.isAbs (env.directory a) <;> simp
  · rw [mem_PredictFilesSet]
    unfold relName
    simp only [habs, Bool.not_true, Bool.false_eq_true, if_false]
    constructor
    · rintro ⟨f, hf, rfl, hm⟩
      exact ⟨hf, hm⟩
    · rintro ⟨hf, hm⟩
      exact ⟨x, hf, rfl, hm⟩

/-- C2 fails as stated: in an empty working directory, with `Last = "a"`, the
names `apple`, `banana`, `avocado` do not come back unchanged.  With the
matcher `match.File` the result is `./apple`, `./avocado`; with the plain
prefix matcher nothing is returned, as no converted name starts with `a`. -/
theorem PredictFilesSet_names_changed :
    PredictFilesSet (emptyTree.env matchFile) fruit (argsLast "a".toList)
      ≠ ["apple".toList, "avocado".toList] ∧
    PredictFilesSet (emptyTree.env matchPrefix) fruit (argsLast "a".toList) = [] ∧
    (emptyTree.env matchFile).isAbs ((emptyTree.env matchFile).directory (argsLast "a".toList))
      = false := by
  decide

/-- C3, as the code has it: `listFiles` returns no string twice;
`PredictFilesSet` and a pass of `predictFiles` return no string twice provided
the candidates, after the conversion of the pass, are pairwise distinct. -/
theorem listing_has_no_duplicates (env : Env) :
    (∀ dir pattern allowFiles, (listFiles env dir pattern allowFiles).Nodup) ∧
    (∀ fs a, (fs.map (relName env (!env.isAbs (env.directory a)))).Nodup →
      (PredictFilesSet env fs a).Nodup) ∧
    (∀ a pattern allowFiles,
      ((listFiles env (env.directory a) pattern allowFiles ++ [env.directory a]).map
          (relName env (!env.isAbs (env.directory a)))).Nodup →
      (predictFiles env a pattern allowFiles).Nodup) := by
  refine ⟨fun dir pattern allowFiles => listFiles_nodup env dir pattern allowFiles, ?_, ?_⟩
  · intro fs a h
    rw [PredictFilesSet_eq]
    exact h.filter _
  · intro a pattern allowFiles h
    unfold predictFiles
    split
    · exact List.nodup_nil
    · simp only []
      rw [PredictFilesSet_eq]
      exact h.filter _

theorem listing_has_no_duplicates_witness :
    (listFiles (nestedTree.env matchFile) "X".toList "*".toList true).Nodup ∧
    (PredictFilesSet (emptyTree.env matchFile) fruit (argsLast "a".toList)).Nodup ∧
    (predictFiles (nestedTree.env matchFile) (argsLast "X".toList) "*".toList true).Nodup :=
  ⟨(listing_has_no_duplicates (nestedTree.env matchFile)).1 "X".toList "*".toList true,
   (listing_has_no_duplicates (emptyTree.env matchFile)).2.1 fruit (argsLast "a".toList)
     (by decide),
   (listing_has_no_duplicates (nestedTree.env matchFile)).2.2 (argsLast "X".toList) "*".toList
     true (by decide)⟩

/-- C3 fails as stated: `PredictFilesSet` does not remove duplicates.  Given the
name `/a` twice, with `Last = "/"` (an absolute `Directory()`), it returns `/a`
twice, under `match.File` and under the plain prefix matcher; given the name
`a` twice, with an empty `Last`, it returns `./a` twice. -/
theorem PredictFilesSet_keeps_duplicates :
    PredictFilesSet (emptyTree.env matchFile) ["/a".toList, "/a".toList] (argsLast "/".toList)
      = ["/a".toList, "/a".toList] ∧
    PredictFilesSet (emptyTree.env matchPrefix) ["/a".toList, "/a".toList] (argsLast "/".toList)
      = ["/a".toList, "/a".toList] ∧
    PredictFilesSet (emptyTree.env matchFile) ["a".toList, "a".toList] (argsLast [])
      = ["./a".toList, "./a".toList] ∧
    ¬ (PredictFilesSet (emptyTree.env matchFile) ["/a".toList, "/a".toList]
        (argsLast "/".toList)).Nodup := by
  decide

/-- A glob match on which `os.Stat` succeeds is among the names `listFiles`
returns exactly when it is a directory, or `allowFiles` is set, or it is also
the name of a direct subdirectory that `ioutil.ReadDir` reports. -/
theorem listFiles_statable_match_iff (env : Env) (dir pattern : GoString) (allowFiles : Bool)
    (fs : List GoString) (f : GoString) (isDir : Bool)
    (hg : env.glob (env.join dir pattern) = some fs) (hf : f ∈ fs)
    (hs : env.stat f = some isDir) :
    f ∈ listFiles env dir pattern allowFiles ↔
      (isDir = true ∨ allowFiles = true) ∨
      ∃ ds, env.readDir dir = some ds ∧ (f, true) ∈ ds := by
  rw [mem_listFiles, mem_listKeys, hg]
  simp only [Option.some.injEq, exists_eq_left', keepMatch_iff, hf, true_and, hs,
    false_or, reduceCtorEq]

/-- The `readme.txt` example: `PredictDirs("*")` over a working directory holding
only the file `readme.txt`, with an empty `Last`, returns only the directory
itself, `./`; the file is a glob match that is left out. -/
theorem PredictDirs_readme_only :
    (readmeTree.env matchFile).glob ((readmeTree.env matchFile).join ".".toList "*".toList)
      = some ["readme.txt".toList] ∧
    listFiles (readmeTree.env matchFile) ".".toList "*".toList false = [] ∧
    ∀ n, PredictDirs (readmeTree.env matchFile) "*".toList (n + 2) (argsLast [])
      = some ["./".toList] := by
  refine ⟨by decide, by decide, fun n => ?_⟩
  have h : files (readmeTree.env matchFile) "*".toList false 2 (argsLast [])
      = some ["./".toList] := by decide
  have h2 := files_add_of_some _ _ _ 2 n _ _ h
  rw [Nat.add_comm] at h2
  exact h2

/-- C4, the code at the failing input: the working directory holds only
`ghost`, a symbolic link whose target does not exist.  `ghost` is a glob match
of `*`, `os.Stat` fails on it, so it is no directory, and `allowFiles` is unset;
`listFiles` returns it all the same, and `PredictDirs("*")` with an empty `Last`
offers `./ghost`.  The sibling paths take the failed `os.Stat` for "not a
directory": `toRel` appends no `/`, and the loop of `files` does not descend
into the single prediction `./ghost` for `Last = "gh"`. -/
theorem listFiles_keeps_broken_link :
    (linkTree.env matchFile).glob ((linkTree.env matchFile).join ".".toList "*".toList)
      = some ["ghost".toList] ∧
    (linkTree.env matchFile).stat "ghost".toList = none ∧
    (linkTree.env matchFile).readDir ".".toList = some [("ghost".toList, false)] ∧
    listFiles (linkTree.env matchFile) ".".toList "*".toList false = ["ghost".toList] ∧
    PredictDirs (linkTree.env matchFile) "*".toList 1 (argsLast [])
      = some ["./ghost".toList, "./".toList] ∧
    toRel (linkTree.env matchFile) "ghost".toList = "./ghost".toList ∧
    PredictDirs (linkTree.env matchFile) "*".toList 1 (argsLast "gh".toList)
      = some ["./ghost".toList] := by
  decide

/-- C5, as the code has it: in a working directory whose one entry is the
directory `X`, `PredictFiles("*")` applied to `Args` with an empty `Last`
returns, after one pass, exactly two candidates: `X` as `./X/` and the working
directory itself as `./`.  With two candidates the loop does not descend. -/
theorem sole_subdir_offered_with_dir (env : Env) (a : Args) (d wd X : GoString)
    (h : SoleSubdir env a d wd X) :
    predictFiles env a "*".toList true = ["./".toList ++ X ++ "/".toList, "./".toList] ∧
    ∀ fuel, PredictFiles env "*".toList (fuel + 1) a
      = some ["./".toList ++ X ++ "/".toList, "./".toList] := by
  have hkeys : listKeys env d "*".toList true = [X] := by
    unfold listKeys
    simp only [h.glob, h.readDir]
    have hk : keepMatch env true X = true := by
      rw [keepMatch_iff]; exact Or.inr (Or.inl h.statX)
    simp [addMatches, addDirs, hk, mapSet]
  have hlist : listFiles env d "*".toList true = [X] := by
    unfold listFiles
    rw [hkeys]
    exact List.perm_singleton.mp (hkeys ▸ env.rangeKeys_perm _)
  have hsuf : HasSuffix a.Last "/..".toList = false := by
    rw [h.last]; decide
  have hrelX : toRel env X = "./".toList ++ X ++ "/".toList := by
    unfold toRel
    simp only [h.getwd, h.absX, h.relX]
    rw [if_pos h.notDot, if_pos h.statRelX]
  have hrelD : toRel env d = "./".toList := by
    unfold toRel
    simp only [h.getwd, h.absDir, h.relDir]
    rw [if_neg (not_not.mpr rfl), if_pos h.statDot]
    rfl
  have hpass : predictFiles env a "*".toList true
      = ["./".toList ++ X ++ "/".toList, "./".toList] := by
    unfold predictFiles
    rw [hsuf]
    simp only [Bool.false_eq_true, if_false]
    rw [h.directory, hlist, PredictFilesSet_eq, h.directory, h.notAbs]
    simp only [List.singleton_append, List.map_cons, List.map_nil, relName, Bool.not_false,
      if_true, hrelX, hrelD, h.last]
    rw [List.filter_cons_of_pos (by simpa using h.matchX),
      List.filter_cons_of_pos (by simpa using h.matchDir)]
    rfl
  refine ⟨hpass, fun fuel => ?_⟩
  unfold PredictFiles
  rw [files_succ, hpass]

theorem sole_subdir_offered_with_dir_witness :
    SoleSubdir (nestedTree.env matchFile) (argsLast []) ".".toList "/w".toList "X".toList ∧
    PredictFiles (nestedTree.env matchFile) "*".toList 1 (argsLast [])
      = some ["./X/".toList, "./".toList] :=
  have hs : SoleSubdir (nestedTree.env matchFile) (argsLast []) ".".toList "/w".toList
      "X".toList :=
    { last := rfl
      directory := by decide
      notAbs := by decide
      glob := by decide
      readDir := by decide
      statX := by decide
      getwd := by decide
      absX := by decide
      relX := by decide
      notDot := by decide
      statRelX := by decide
      absDir := by decide
      relDir := by decide
      statDot := by decide
      matchX := by decide
      matchDir := by decide }
  ⟨hs, (sole_subdir_offered_with_dir (nestedTree.env matchFile) (argsLast []) ".".toList
    "/w".toList "X".toList hs).2 0⟩

/-- C5 fails as stated: the working directory holds only the directory `X`,
which holds exactly the files `f1` and `f2`; `PredictFiles("*")` with an empty
`Last` returns `./X/` and `./`, not the paths of `f1` and `f2` under `X`, and
more fuel does not change it. -/
theorem sole_subdir_not_descended :
    PredictFiles (nestedTree.env matchFile) "*".toList 1 (argsLast [])
      = some ["./X/".toList, "./".toList] ∧
    PredictFiles (nestedTree.env matchFile) "*".toList 5 (argsLast [])
      = some ["./X/".toList, "./".toList] ∧
    PredictFiles (nestedTree.env matchPrefix) "*".toList 5 (argsLast [])
      = some ["./X/".toList, "./".toList] := by
  decide

/-- C8, the code at the failing input: the working directory holds `dir`, and
`dir` holds the directory `sub`.  For the typed fragment `dir/` and the pattern
`*.go`, `listFiles` lists the subdirectory under its bare name `sub`, which
names nothing in the working directory, and `PredictFiles("*.go")` returns only
`./dir/` (nothing at all under the plain prefix matcher): the subdirectory
`dir/sub` is not offered.  With the pattern `*` the glob matches offer it. -/
theorem subdir_listed_by_bare_name :
    (subdirTree.env matchFile).directory (argsLast "dir/".toList) = "dir/".toList ∧
    (subdirTree.env matchFile).stat "dir/sub".toList = some true ∧
    (subdirTree.env matchFile).stat "sub".toList = none ∧
    listFiles (subdirTree.env matchFile) "dir/".toList "*.go".toList true = ["sub".toList] ∧
    predictFiles (subdirTree.env matchFile) (argsLast "dir/".toList) "*.go".toList true
      = ["./dir/".toList] ∧
    PredictFiles (subdirTree.env matchFile) "*.go".toList 2 (argsLast "dir/".toList)
      = some ["./dir/".toList] ∧
    PredictFiles (subdirTree.env matchPrefix) "*.go".toList 2 (argsLast "dir/".toList)
      = some [] ∧
    PredictFiles (subdirTree.env matchFile) "*".toList 1 (argsLast "dir/".toList)
      = some ["./dir/sub/".toList, "./dir/".toList] := by
  decide

/-- A consequence of listing subdirectories by their bare name: when `x` holds
a directory also named `x`, `PredictFiles("*")` for the fragment `x/` returns
`./x/` twice. -/
theorem bare_name_gives_duplicate :
    PredictFiles (twinTree.env matchFile) "*".toList 1 (argsLast "x/".toList)
      = some ["./x/x/".toList, "./x/".toList, "./x/".toList] := by
  decide

end Complete
